import Mathlib

/-!
Shallow embedding of the synchronization core of marketui (src/js/src.js):
the market registry and its diff/merge algorithm, the single-flight HTTP
request wrapper, the persistent WebSocket connection manager, and the
periodic-update scheduler.  JS strings are modelled as lists of characters,
JS Map objects as association lists (insertion-ordered, unique keys), and
stateful operations as explicit state-passing functions that also emit the
observable actions they perform.
-/

namespace Marketui

/-- JS strings, modelled as lists of characters. -/
abbrev Str := List Char

/-- Coerce a Lean string literal to the model string type. -/
def str (s : String) : Str := s.data

/-! ## JS Map and Set embedding

Market registries and diff mappings are JS `Map` objects keyed by market id.
A `Map` is modelled as an insertion-ordered association list; `Map.set` on an
existing key replaces the value in place, on a fresh key appends at the end,
exactly as JS `Map` iteration order behaves.  `Set` is modelled as a plain
list with `delete` as a filter. -/

/-- Market ids (numbers in the legacy Poloniex API). -/
abbrev Id := Nat

/-- `Map.get`, returning the value at the first matching key. -/
def mapGet {V : Type} : List (Id × V) → Id → Option V
  | [], _ => none
  | (k, v) :: rest, j => if k = j then some v else mapGet rest j

/-- `Map.set`: replace in place if the key exists, else append. -/
def mapSet {V : Type} : List (Id × V) → Id → V → List (Id × V)
  | [], k, v => [(k, v)]
  | (k', v') :: rest, k, v =>
    if k' = k then (k, v) :: rest else (k', v') :: mapSet rest k v

/-- `Map.delete`: remove the (first) entry with the given key. -/
def mapDelete {V : Type} : List (Id × V) → Id → List (Id × V)
  | [], _ => []
  | (k', v') :: rest, k => if k' = k then rest else (k', v') :: mapDelete rest k

/-- Mutate the value stored at a key in place (models field assignment on the
object returned by `Map.get`); leaves the map unchanged if the key is absent. -/
def mapModify {V : Type} : List (Id × V) → Id → (V → V) → List (Id × V)
  | [], _, _ => []
  | (k', v) :: rest, k, f =>
    if k' = k then (k', f v) :: rest else (k', v) :: mapModify rest k f

/-- `Map.keys()` in iteration order. -/
def mapKeys {V : Type} (m : List (Id × V)) : List Id := m.map (·.1)

/-! ## format (src.js lines 30 to 36)

    function format(template, params) {
      let res = template;
      for (const key in params) {
        res = res.replace("\x7b" + key + "\x7d", params[key]);
      }
      return res;
    }

`String.replace` with a string pattern replaces only the first occurrence. -/

/-- Whether `pat` is an initial segment of `s` (the match test of
`String.replace` at the current position). -/
def leadsWith : Str → Str → Bool
  | [], _ => true
  | _ :: _, [] => false
  | p :: ps, c :: cs => if p = c then leadsWith ps cs else false

/-- JS `s.replace(pat, rep)` for string patterns: replace the first
occurrence of `pat` only, or return `s` unchanged if there is none. -/
def replaceFirst (pat rep : Str) : Str → Str
  | [] => if leadsWith pat [] then rep ++ (([] : Str).drop pat.length) else []
  | c :: rest =>
    if leadsWith pat (c :: rest) then rep ++ ((c :: rest).drop pat.length)
    else c :: replaceFirst pat rep rest

/-- The placeholder built for a parameter key: brace, key, brace. -/
def placeholder (key : Str) : Str := Char.ofNat 123 :: (key ++ [Char.ofNat 125])

/-- `format(template, params)`: substitute each parameter into the template
in turn, each via a first-occurrence-only replace. -/
def format (template : Str) (params : List (Str × Str)) : Str :=
  params.foldl (fun res p => replaceFirst (placeholder p.1) p.2 res) template

/-! ## PromiseLoop (src.js lines 53 to 77)

    function promiseLoop(loop) {
      loop.promiseFn()
        .finally(() => {
          // false prevents from setting new timers
          if (loop.enabled) {
            loop.timer = setTimeout(promiseLoop, loop.interval, loop);
          }
        });
    }

    function setPromiseLoopEnabled(loop, enabled) {
      loop.enabled = enabled;
      ...
      if (enabled) {
        promiseLoop(loop);
      } else {
        clearTimeout(loop.timer);
        loop.cancel();
      }
    }

The asynchronous work function is abstracted away: what matters for the
scheduler claims is when a work invocation happens and when the timer is
re-armed.  Pending `setTimeout` handles are modelled as `Option Nat`
(`none` after `clearTimeout`). -/

structure PromiseLoop where
  enabled : Bool
  timer : Option Nat
  interval : Nat
deriving DecidableEq

/-- `createPromiseLoop`: loops start disabled with no pending timer. -/
def createPromiseLoop (interval : Nat) : PromiseLoop :=
  { enabled := false, timer := none, interval := interval }

/-- The `.finally` callback of an in-flight cycle settling: re-arms the timer
(with a fresh handle) only when the loop is still enabled.  The returned
`Bool` reports whether a new timer was scheduled. -/
def promiseLoopSettle (loop : PromiseLoop) (fresh : Nat) : PromiseLoop × Bool :=
  if loop.enabled then ({ loop with timer := some fresh }, true)
  else (loop, false)

/-- `setPromiseLoopEnabled`: set the flag; on disable, clear any pending
timer (`clearTimeout`) and cancel the in-flight operation.  The returned
`Bool` reports whether the work function was invoked immediately (the
enable branch calls `promiseLoop(loop)` right away). -/
def setPromiseLoopEnabled (loop : PromiseLoop) (enabled : Bool) : PromiseLoop × Bool :=
  if enabled then ({ loop with enabled := true }, true)
  else ({ loop with enabled := false, timer := none }, false)

/-- Events that can reach a loop after a call returns: a previously armed
timer fires (carrying its handle), or an in-flight cycle settles (carrying a
fresh handle for any timer it would arm). -/
inductive LoopEvt where
  | timerFired (id : Nat)
  | settled (fresh : Nat)
deriving DecidableEq

/-- One event step; returns the new loop state and how many work-function
invocations the event caused.  A fired timer only invokes the work function
if it is still the pending one (a cleared or replaced handle never fires). -/
def loopStep (loop : PromiseLoop) : LoopEvt → PromiseLoop × Nat
  | .timerFired id =>
    match loop.timer with
    | some t => if t = id then ({ loop with timer := none }, 1) else (loop, 0)
    | none => (loop, 0)
  | .settled fresh => ((promiseLoopSettle loop fresh).1, 0)

/-- Run a sequence of events, counting work-function invocations. -/
def runLoop : PromiseLoop → List LoopEvt → PromiseLoop × Nat
  | loop, [] => (loop, 0)
  | loop, e :: rest =>
    ((runLoop (loopStep loop e).1 rest).1,
     (loopStep loop e).2 + (runLoop (loopStep loop e).1 rest).2)

/-! ## HTTP endpoint (src.js lines 87 to 123)

    function asyncFetchJson(endpoint, params) {
      if (endpoint.fetching) {
        const reason = "http: ignoring fetch request until existing one finishes";
        console.log(reason);
        return Promise.reject(new RequestIgnored(reason));
      }
      endpoint.fetching = true;
      endpoint.aborter = new AbortController();
      const url = format(endpoint.url, params);
      ...
    }

The transport itself is external; the embedding captures the in-flight flag,
the fresh abort controller, and which outcome the call commits to. -/

structure Endpoint where
  url : Str
  fetching : Bool
  aborter : Option Nat
deriving DecidableEq

/-- `createEndpoint`: starts idle with no abort controller. -/
def createEndpoint (url : Str) : Endpoint :=
  { url := url, fetching := false, aborter := none }

/-- Immediate outcome of `asyncFetchJson`: either the request is dropped with
`RequestIgnored`, or a fetch starts on the formatted URL. -/
inductive FetchStart where
  | requestIgnored
  | started (url : Str)
deriving DecidableEq

/-- `asyncFetchJson`: single-flight guard, then mark in flight, allocate a
fresh `AbortController` (modelled by the caller-supplied fresh handle) and
start fetching the formatted URL. -/
def asyncFetchJson (ep : Endpoint) (params : List (Str × Str)) (fresh : Nat) :
    FetchStart × Endpoint :=
  if ep.fetching then (.requestIgnored, ep)
  else (.started (format ep.url params),
        { ep with fetching := true, aborter := some fresh })

/-- The `.finally` of a fetch settling: unconditionally resets the flag. -/
def fetchSettle (ep : Endpoint) : Endpoint := { ep with fetching := false }

/-! ## WebSocket endpoint (src.js lines 154 to 242)

    function sendWs(endpoint, obj) {
      const { ws, queue } = endpoint;
      if (!ws || ws.readyState !== WebSocket.OPEN) {
        queue.push(obj);
        if (queue.length > 5) {
          console.warn("ws: queue size is now", queue.length);
        }
        openWs(endpoint);
        return;
      }
      const message = JSON.stringify(obj);
      console.log("ws: sending:", message);
      ws.send(message);
      resetCloseTimer(endpoint, endpoint.noSendTimeout);
    }

and the onopen handler installed by openWs:

    ws.onopen = (evt) => {
      ...
      const oldQueue = endpoint.queue;
      endpoint.queue = [];
      for (const obj of oldQueue) { sendWs(endpoint, obj); }
      resetCloseTimer(endpoint, endpoint.noSendTimeout);
      callMaybe(endpoint.onopen, evt);
    };

Outbound messages are never inspected, only serialized, so they are modelled
opaquely as numbers.  Each `new WebSocket(url)` is given a fresh connection
id from a counter in the endpoint state, and every externally visible action
(connection attempt, transmission, timer clear and arm) is emitted into a
trace. -/

/-- Outbound WS messages, modelled opaquely. -/
abbrev WsMsg := Nat

/-- The readyState of an underlying WebSocket object that matters here. -/
inductive WsReady where
  | connecting
  | opened
  | closed
deriving DecidableEq

structure WsConn where
  connId : Nat
  readyState : WsReady
deriving DecidableEq

structure WsEndpoint where
  url : Str
  ws : Option WsConn
  queue : List WsMsg
  noSendTimeout : Nat
  closeTimer : Option Nat
  nextConnId : Nat
deriving DecidableEq

/-- `createWsEndpoint(url)`: no socket, empty queue, 60 s idle close. -/
def createWsEndpoint (url : Str) : WsEndpoint :=
  { url := url, ws := none, queue := [], noSendTimeout := 60000,
    closeTimer := none, nextConnId := 0 }

/-- Observable actions of the WS endpoint. -/
inductive WsAct where
  | openAttempt (connId : Nat)
  | transmit (m : WsMsg)
  | clearTimer
  | armTimer (delay : Nat)
deriving DecidableEq

/-- `resetCloseTimer(endpoint, delay)`: always `clearTimeout`; arm a new
auto-close timer only when `delay > 0`. -/
def resetCloseTimer (ep : WsEndpoint) (delay : Nat) : WsEndpoint × List WsAct :=
  if 0 < delay then
    ({ ep with closeTimer := some delay }, [.clearTimer, .armTimer delay])
  else
    ({ ep with closeTimer := none }, [.clearTimer])

/-- `openWs(endpoint)`: create a `new WebSocket(endpoint.url)` (a fresh
connection in the connecting state), install handlers, and store it in
`endpoint.ws`, replacing whatever was there. -/
def openWs (ep : WsEndpoint) : WsEndpoint × List WsAct :=
  ({ ep with ws := some { connId := ep.nextConnId, readyState := .connecting },
             nextConnId := ep.nextConnId + 1 },
   [.openAttempt ep.nextConnId])

/-- The test `ws && ws.readyState === WebSocket.OPEN`. -/
def wsIsOpen (ep : WsEndpoint) : Bool :=
  match ep.ws with
  | none => false
  | some c =>
    match c.readyState with
    | .opened => true
    | _ => false

/-- `sendWs(endpoint, obj)`: if the socket is not open, enqueue at the end of
the queue and call `openWs`; otherwise transmit immediately and reset the
idle-close timer. -/
def sendWs (ep : WsEndpoint) (m : WsMsg) : WsEndpoint × List WsAct :=
  if wsIsOpen ep = false then
    openWs { ep with queue := ep.queue ++ [m] }
  else
    ((resetCloseTimer ep ep.noSendTimeout).1,
     .transmit m :: (resetCloseTimer ep ep.noSendTimeout).2)

/-- The runtime marks the current socket OPEN just before `onopen` runs. -/
def wsMarkOpen (ep : WsEndpoint) : WsEndpoint :=
  { ep with ws := ep.ws.map (fun c => { c with readyState := .opened }) }

/-- The drain loop of the onopen handler: re-invoke `sendWs` for each queued
message in order, concatenating the emitted actions. -/
def drainLoop : WsEndpoint → List WsMsg → WsEndpoint × List WsAct
  | ep, [] => (ep, [])
  | ep, m :: rest =>
    ((drainLoop (sendWs ep m).1 rest).1,
     (sendWs ep m).2 ++ (drainLoop (sendWs ep m).1 rest).2)

/-- The `onopen` handler: the socket becomes OPEN, the shared queue is copied
and reset, the old queue is drained through `sendWs`, and then the idle-close
timer is reset. -/
def wsOnOpen (ep : WsEndpoint) : WsEndpoint × List WsAct :=
  let ep0 := wsMarkOpen ep
  let d := drainLoop { ep0 with queue := [] } ep0.queue
  ((resetCloseTimer d.1 d.1.noSendTimeout).1,
   d.2 ++ (resetCloseTimer d.1 d.1.noSendTimeout).2)

/-- The messages transmitted in a trace, in order. -/
def transmitsOf (acts : List WsAct) : List WsMsg :=
  acts.filterMap (fun a => match a with | .transmit m => some m | _ => none)

/-! ## Data model: markets (src.js lines 416 to 686)

The legacy ticker response is a JS object keyed by pair name, each value
carrying at least `id`, `last` and `isFrozen`; it is modelled as the list of
its entries in iteration order. -/

structure TickerItem where
  id : Id
  last : Str
  isFrozen : Str
deriving DecidableEq

/-- A normalized Market record. -/
structure Market where
  id : Id
  base : Str
  quote : Str
  label : Str
  last : Str
  isActive : Bool
deriving DecidableEq

/-- The registry: a Map from market id to Market. -/
abbrev Registry := List (Id × Market)

/-- A ticker response: entries of the snapshot object in iteration order. -/
abbrev TickerResp := List (Str × TickerItem)

/-- The two tracked fields of a market update (src.js lines 448 to 453):

    function marketUpdate(tickerItem) {
      return {
        isActive: (tickerItem.isFrozen !== "1"),
        last: tickerItem.last,
      }
    }
-/
structure MarketUpd where
  isActive : Bool
  last : Str
deriving DecidableEq

def marketUpdate (t : TickerItem) : MarketUpd :=
  { isActive := if t.isFrozen = str "1" then false else true,
    last := t.last }

/-- The tracked-field projection of a Market (price and active flag). -/
def trackedOf (m : Market) : MarketUpd := { isActive := m.isActive, last := m.last }

/-- Split a string at every occurrence of a separator character; models
`name.split("_")` (the separator is a single character). -/
def splitOnChar (sep : Char) : Str → List Str
  | [] => [[]]
  | c :: rest =>
    match splitOnChar sep rest with
    | [] => [[]]
    | s :: ss => if c = sep then [] :: s :: ss else (c :: s) :: ss

/-- `createMarket(id, name, tickerItem)` (src.js lines 463 to 478): the legacy
pair name is "quote_base", so the two split parts are swapped into
quote and base; the label is "base/quote"; the tracked fields come from
`marketUpdate(tickerItem)`.  (JS destructuring yields `undefined` for a
missing part; pair names always contain one underscore, so that path is
modelled by a placeholder string.) -/
def createMarket (id : Id) (name : Str) (t : TickerItem) : Market :=
  let parts := splitOnChar (Char.ofNat 95) name
  let quote := parts.getD 0 (str "undefined")
  let base := parts.getD 1 (str "undefined")
  let u := marketUpdate t
  { id := id, base := base, quote := quote,
    label := base ++ str "/" ++ quote,
    last := u.last, isActive := u.isActive }

/-- `createMarkets(tickerResp)` (src.js lines 491 to 511): key the snapshot by
market id via `markets.set(market.id, market)` over the entries in order. -/
def createMarkets (tickerResp : TickerResp) : Registry :=
  tickerResp.foldl
    (fun ms e => mapSet ms e.2.id (createMarket e.2.id e.1 e.2)) []

/-- A per-field change record: `{old, new}` pairs for the tracked fields that
differ, in the key order of the update object (isActive, then last). -/
structure MarketChange where
  isActive : Option (Bool × Bool)
  last : Option (Str × Str)
deriving DecidableEq

/-- `marketChange(market, update)` (src.js lines 534 to 545): compare each
tracked field with `!==`; return null when nothing differs. -/
def marketChange (m : Market) (u : MarketUpd) : Option MarketChange :=
  let ia := if u.isActive = m.isActive then none else some (m.isActive, u.isActive)
  let la := if u.last = m.last then none else some (m.last, u.last)
  match ia, la with
  | none, none => none
  | _, _ => some { isActive := ia, last := la }

/-- A Diff: changes, additions and removals.  A removal stores the result of
`markets.get(id)` for the removed id. -/
structure Diff where
  changes : List (Id × MarketChange)
  additions : List (Id × Market)
  removals : List (Id × Option Market)
deriving DecidableEq

/-- `marketsDiff(changes, additions, removals)` (src.js lines 548 to 554):
null when all three maps are empty, to allow `if (diff) ...` checks. -/
def marketsDiff (changes : List (Id × MarketChange)) (additions : List (Id × Market))
    (removals : List (Id × Option Market)) : Option Diff :=
  if changes.length = 0 ∧ additions.length = 0 ∧ removals.length = 0 then none
  else some { changes := changes, additions := additions, removals := removals }

/-- Accumulator of the `marketsDiffHttp` loop: the changes and additions maps
under construction and the shrinking set of not-yet-seen old ids. -/
structure DiffAcc where
  changes : List (Id × MarketChange)
  additions : List (Id × Market)
  oldIds : List Id
deriving DecidableEq

/-- One iteration of the `marketsDiffHttp` loop body (src.js lines 563 to
575): a snapshot entry whose id exists in the registry contributes a change
(when a tracked field differs) and is removed from `oldIds`; an unknown id
contributes an addition. -/
def diffHttpStep (markets : Registry) (acc : DiffAcc) (e : Str × TickerItem) : DiffAcc :=
  match mapGet markets e.2.id with
  | some market =>
    let changes' :=
      match marketChange market (marketUpdate e.2) with
      | some c => mapSet acc.changes e.2.id c
      | none => acc.changes
    { changes := changes', additions := acc.additions,
      oldIds := acc.oldIds.filter (fun i => decide (i ≠ e.2.id)) }
  | none =>
    { changes := acc.changes,
      additions := mapSet acc.additions e.2.id (createMarket e.2.id e.1 e.2),
      oldIds := acc.oldIds }

/-- The `for (const marketName in tickerResp)` loop of `marketsDiffHttp`. -/
def diffHttpLoop (markets : Registry) : TickerResp → DiffAcc → DiffAcc
  | [], acc => acc
  | e :: rest, acc => diffHttpLoop markets rest (diffHttpStep markets acc e)

/-- `marketsDiffHttp(markets, tickerResp)` (src.js lines 557 to 583). -/
def marketsDiffHttp (markets : Registry) (tickerResp : TickerResp) : Option Diff :=
  let acc := diffHttpLoop markets tickerResp
    { changes := [], additions := [], oldIds := mapKeys markets }
  let removals := acc.oldIds.map (fun i => (i, mapGet markets i))
  marketsDiff acc.changes acc.additions removals

/-- One per-market record of a WS ticker update message (`updates[i]` for
`i >= 2`): pair id at index 0, last price at index 1, frozen flag (a number)
at index 7. -/
structure WsTickerItem where
  id : Id
  last : Str
  isFrozen : Nat
deriving DecidableEq

/-- The market synthesized for a WS update about an unseen id (src.js line
635): `createMarket(mid, "UNKNOWN_UNKNOWN", marketUpd)`.  The object passed
as tickerItem has no `isFrozen` field, so `marketUpdate` computes
`undefined !== "1"`, i.e. the placeholder market is always active; its last
price is the update price. -/
def createMarketWsUnknown (id : Id) (lastPrice : Str) : Market :=
  { id := id, base := str "UNKNOWN", quote := str "UNKNOWN",
    label := str "UNKNOWN/UNKNOWN", last := lastPrice, isActive := true }

/-- Accumulator of the `marketsDiffWs` loop (its removals map is created and
stays empty). -/
structure WsAcc where
  changes : List (Id × MarketChange)
  additions : List (Id × Market)
deriving DecidableEq

/-- One iteration of the `marketsDiffWs` loop body (src.js lines 624 to 643). -/
def diffWsStep (markets : Registry) (acc : WsAcc) (u : WsTickerItem) : WsAcc :=
  let upd : MarketUpd :=
    { isActive := if u.isFrozen = 1 then false else true, last := u.last }
  match mapGet markets u.id with
  | none =>
    { changes := acc.changes,
      additions := mapSet acc.additions u.id (createMarketWsUnknown u.id u.last) }
  | some market =>
    match marketChange market upd with
    | some c => { changes := mapSet acc.changes u.id c, additions := acc.additions }
    | none => acc

def diffWsLoop (markets : Registry) : List WsTickerItem → WsAcc → WsAcc
  | [], acc => acc
  | u :: rest, acc => diffWsLoop markets rest (diffWsStep markets acc u)

/-- `marketsDiffWs(markets, updates)` (src.js lines 616 to 649); the argument
models `updates[2..]`, the per-market records of the push message. -/
def marketsDiffWs (markets : Registry) (items : List WsTickerItem) : Option Diff :=
  let acc := diffWsLoop markets items { changes := [], additions := [] }
  marketsDiff acc.changes acc.additions []

/-- Write the new values of a change record into a market, in the key order
of the change object (isActive, then last). -/
def applyChangeFields (m : Market) (c : MarketChange) : Market :=
  let m1 := match c.isActive with
    | some p => { m with isActive := p.2 }
    | none => m
  match c.last with
  | some p => { m1 with last := p.2 }
  | none => m1

/-- Pass 1 of `updateMarkets`: for each change, fetch the market with
`markets.get(mid)` and assign the changed fields in place.  (In JS an absent
id would be a TypeError; diffs produced by the diff functions only carry
change ids that are registry keys, and the absent case is modelled as a
no-op.) -/
def applyChanges (markets : Registry) (chs : List (Id × MarketChange)) : Registry :=
  chs.foldl (fun ms p => mapModify ms p.1 (fun mk => applyChangeFields mk p.2)) markets

/-- Pass 2 of `updateMarkets`: `markets.set(mid, newMarket)` per addition. -/
def applyAdditions (markets : Registry) (adds : List (Id × Market)) : Registry :=
  adds.foldl (fun ms p => mapSet ms p.1 p.2) markets

/-- Pass 3 of `updateMarkets`: `markets.delete(mid)` per removal. -/
def applyRemovals (markets : Registry) (rems : List (Id × Option Market)) : Registry :=
  rems.foldl (fun ms p => mapDelete ms p.1) markets

/-- `updateMarkets(markets, diff)` (src.js lines 652 to 680): the guard
`if (!diff) { return; }` makes a null diff an immediate silent return with no
mutation; otherwise apply changes, then additions, then removals. -/
def updateMarkets (markets : Registry) (diff : Option Diff) : Registry :=
  match diff with
  | none => markets
  | some d =>
    applyRemovals (applyAdditions (applyChanges markets d.changes) d.additions) d.removals

/-- Disjointness of the three mappings of a Diff: no id is in two of them. -/
abbrev DiffPartition (d : Diff) : Prop :=
  (∀ j ∈ mapKeys d.changes, j ∉ mapKeys d.additions) ∧
  (∀ j ∈ mapKeys d.changes, j ∉ mapKeys d.removals) ∧
  (∀ j ∈ mapKeys d.additions, j ∉ mapKeys d.removals)

/-! ## Sample data used by the concrete witnesses -/

/-- The ticker item of scenario A of the spec. -/
def tickerItemA : TickerItem := { id := 1, last := str "0.05", isFrozen := str "0" }

/-- The snapshot of scenario A. -/
def snapshotA : TickerResp := [(str "BTC_ETH", tickerItemA)]

/-- The registry produced by scenario A. -/
def registryA : Registry := createMarkets snapshotA

/-- The ticker items of scenario B of the spec. -/
def tickerItemB1 : TickerItem := { id := 1, last := str "0.06", isFrozen := str "0" }

def tickerItemB2 : TickerItem := { id := 2, last := str "10", isFrozen := str "0" }

/-- The snapshot of scenario B. -/
def snapshotB : TickerResp :=
  [(str "BTC_ETH", tickerItemB1), (str "BTC_LTC", tickerItemB2)]

/-- The Diff that scenario B yields on the registry of scenario A. -/
def diffB : Diff :=
  { changes := [(1, { isActive := none, last := some (str "0.05", str "0.06") })],
    additions := [(2, { id := 2, base := str "LTC", quote := str "BTC",
                        label := str "LTC/BTC", last := str "10", isActive := true })],
    removals := [] }

/-- The endpoint of scenario D after send(m1) while Closed: the first
connection attempt is in flight. -/
def wsEndpointD1 : WsEndpoint :=
  (sendWs (createWsEndpoint (str "wss://api2.poloniex.com")) 10).1

/-- The endpoint of scenario D after the further send(m2) while Connecting. -/
def wsEndpointD2 : WsEndpoint := (sendWs wsEndpointD1 20).1

/-- A busy HTTP endpoint: a first request is in flight. -/
def busyEndpoint : Endpoint :=
  { url := str "https://poloniex.com/public?command=returnTicker",
    fetching := true, aborter := some 0 }

/-- A markets loop that has just been stopped. -/
def stoppedLoop : PromiseLoop :=
  (setPromiseLoopEnabled { enabled := true, timer := some 3, interval := 10000 } false).1

/-! # Lemmas about the Map embedding -/

theorem mapKeys_nil {V : Type} : mapKeys ([] : List (Id × V)) = [] := rfl

theorem mapKeys_cons {V : Type} (p : Id × V) (rest : List (Id × V)) :
    mapKeys (p :: rest) = p.1 :: mapKeys rest := rfl

theorem mapGet_mapSet_self {V : Type} (m : List (Id × V)) (k : Id) (v : V) :
    mapGet (mapSet m k v) k = some v := by
  induction m with
  | nil => simp [mapSet, mapGet]
  | cons p rest ih =>
    obtain ⟨k', v'⟩ := p
    by_cases h : k' = k
    · simp [mapSet, h, mapGet]
    · simp [mapSet, h, mapGet, ih]

theorem mapGet_mapSet_ne {V : Type} (m : List (Id × V)) (k : Id) (v : V) (j : Id)
    (h : j ≠ k) : mapGet (mapSet m k v) j = mapGet m j := by
  induction m with
  | nil => simp [mapSet, mapGet, Ne.symm h]
  | cons p rest ih =>
    obtain ⟨k', v'⟩ := p
    by_cases h' : k' = k
    · subst h'
      simp [mapSet, mapGet, Ne.symm h]
    · simp [mapSet, h', mapGet, ih]

theorem mapGet_eq_none_iff {V : Type} (m : List (Id × V)) (j : Id) :
    mapGet m j = none ↔ j ∉ mapKeys m := by
  induction m with
  | nil => simp [mapGet, mapKeys_nil]
  | cons p rest ih =>
    obtain ⟨k, v⟩ := p
    by_cases h : k = j
    · simp [mapGet, h, mapKeys_cons]
    · simp [mapGet, h, mapKeys_cons, ih, Ne.symm h]

theorem mem_mapKeys_of_get {V : Type} {m : List (Id × V)} {j : Id} {v : V}
    (h : mapGet m j = some v) : j ∈ mapKeys m := by
  by_contra hmem
  rw [← mapGet_eq_none_iff m j] at hmem
  rw [h] at hmem
  exact Option.noConfusion hmem

theorem mapSet_cons_pos {V : Type} (rest : List (Id × V)) (k : Id) (v v' : V) :
    mapSet ((k, v') :: rest) k v = (k, v) :: rest := by
  simp [mapSet]

theorem mapSet_cons_neg {V : Type} (rest : List (Id × V)) (k' : Id) (v' : V)
    (k : Id) (v : V) (h : k' ≠ k) :
    mapSet ((k', v') :: rest) k v = (k', v') :: mapSet rest k v := by
  simp [mapSet, h]

theorem mem_mapKeys_mapSet {V : Type} (m : List (Id × V)) (k : Id) (v : V) (j : Id) :
    j ∈ mapKeys (mapSet m k v) ↔ j = k ∨ j ∈ mapKeys m := by
  induction m with
  | nil => simp [mapSet, mapKeys_cons, mapKeys_nil]
  | cons p rest ih =>
    obtain ⟨k', v'⟩ := p
    by_cases h : k' = k
    · subst h
      rw [mapSet_cons_pos]
      simp only [mapKeys_cons, List.mem_cons]
      tauto
    · rw [mapSet_cons_neg rest k' v' k v h]
      simp only [mapKeys_cons, List.mem_cons, ih]
      tauto

theorem nodup_mapKeys_mapSet {V : Type} (m : List (Id × V)) (k : Id) (v : V)
    (h : (mapKeys m).Nodup) : (mapKeys (mapSet m k v)).Nodup := by
  induction m with
  | nil => simp [mapSet, mapKeys_cons, mapKeys_nil]
  | cons p rest ih =>
    obtain ⟨k', v'⟩ := p
    rw [mapKeys_cons, List.nodup_cons] at h
    by_cases h' : k' = k
    · subst h'
      rw [mapSet_cons_pos, mapKeys_cons, List.nodup_cons]
      exact h
    · rw [mapSet_cons_neg rest k' v' k v h', mapKeys_cons, List.nodup_cons]
      refine ⟨?_, ih h.2⟩
      rw [mem_mapKeys_mapSet]
      push_neg
      exact ⟨h', h.1⟩

theorem mapGet_mapModify_self {V : Type} (m : List (Id × V)) (k : Id) (f : V → V) :
    mapGet (mapModify m k f) k = (mapGet m k).map f := by
  induction m with
  | nil => simp [mapModify, mapGet]
  | cons p rest ih =>
    obtain ⟨k', v⟩ := p
    by_cases h : k' = k
    · simp [mapModify, h, mapGet]
    · simp [mapModify, h, mapGet, ih]

theorem mapGet_mapModify_ne {V : Type} (m : List (Id × V)) (k : Id) (f : V → V) (j : Id)
    (h : j ≠ k) : mapGet (mapModify m k f) j = mapGet m j := by
  induction m with
  | nil => simp [mapModify]
  | cons p rest ih =>
    obtain ⟨k', v⟩ := p
    by_cases h' : k' = k
    · subst h'
      simp [mapModify, mapGet, Ne.symm h]
    · simp [mapModify, h', mapGet, ih]

theorem mapKeys_mapModify {V : Type} (m : List (Id × V)) (k : Id) (f : V → V) :
    mapKeys (mapModify m k f) = mapKeys m := by
  induction m with
  | nil => simp [mapModify]
  | cons p rest ih =>
    obtain ⟨k', v⟩ := p
    by_cases h : k' = k
    · simp [mapModify, h, mapKeys_cons]
    · simp only [mapModify, if_neg h, mapKeys_cons, ih]

theorem mapDelete_sublist {V : Type} (m : List (Id × V)) (k : Id) :
    List.Sublist (mapDelete m k) m := by
  induction m with
  | nil => simp [mapDelete]
  | cons p rest ih =>
    obtain ⟨k', v⟩ := p
    by_cases h : k' = k
    · simp only [mapDelete, if_pos h]
      exact (List.Sublist.refl rest).cons (k', v)
    · simpa [mapDelete, h] using ih.cons₂ (k', v)

theorem nodup_mapKeys_mapDelete {V : Type} (m : List (Id × V)) (k : Id)
    (h : (mapKeys m).Nodup) : (mapKeys (mapDelete m k)).Nodup :=
  h.sublist ((mapDelete_sublist m k).map Prod.fst)

theorem mapGet_mapDelete_ne {V : Type} (m : List (Id × V)) (k : Id) (j : Id)
    (h : j ≠ k) : mapGet (mapDelete m k) j = mapGet m j := by
  induction m with
  | nil => simp [mapDelete]
  | cons p rest ih =>
    obtain ⟨k', v⟩ := p
    by_cases h' : k' = k
    · subst h'
      simp [mapDelete, mapGet, Ne.symm h]
    · simp [mapDelete, h', mapGet, ih]

theorem mapGet_mapDelete_self {V : Type} (m : List (Id × V)) (k : Id)
    (h : (mapKeys m).Nodup) : mapGet (mapDelete m k) k = none := by
  induction m with
  | nil => simp [mapDelete, mapGet]
  | cons p rest ih =>
    obtain ⟨k', v⟩ := p
    rw [mapKeys_cons, List.nodup_cons] at h
    by_cases h' : k' = k
    · subst h'
      simp only [mapDelete, if_pos rfl]
      rw [mapGet_eq_none_iff]
      exact h.1
    · simp [mapDelete, h', mapGet, ih h.2]

/-! # Lemmas about change records and the update passes -/

theorem marketChange_eq_none_iff (m : Market) (u : MarketUpd) :
    marketChange m u = none ↔ u.isActive = m.isActive ∧ u.last = m.last := by
  by_cases h1 : u.isActive = m.isActive <;> by_cases h2 : u.last = m.last <;>
    simp [marketChange, h1, h2]

theorem trackedOf_applyChangeFields (m : Market) (u : MarketUpd) (c : MarketChange)
    (h : marketChange m u = some c) : trackedOf (applyChangeFields m c) = u := by
  obtain ⟨ua, ul⟩ := u
  by_cases h1 : ua = m.isActive
  · by_cases h2 : ul = m.last
    · exfalso
      simp [marketChange, h1, h2] at h
    · simp [marketChange, h1, h2] at h
      subst h
      simp [applyChangeFields, trackedOf, h1]
  · by_cases h2 : ul = m.last
    · simp [marketChange, h1, h2] at h
      subst h
      simp [applyChangeFields, trackedOf, h2]
    · simp [marketChange, h1, h2] at h
      subst h
      simp [applyChangeFields, trackedOf]

theorem trackedOf_createMarket (id : Id) (name : Str) (t : TickerItem) :
    trackedOf (createMarket id name t) = marketUpdate t := rfl

theorem applyChanges_nil (ms : Registry) : applyChanges ms [] = ms := rfl

theorem applyChanges_cons (ms : Registry) (p : Id × MarketChange)
    (rest : List (Id × MarketChange)) :
    applyChanges ms (p :: rest)
      = applyChanges (mapModify ms p.1 (fun mk => applyChangeFields mk p.2)) rest := rfl

theorem applyAdditions_nil (ms : Registry) : applyAdditions ms [] = ms := rfl

theorem applyAdditions_cons (ms : Registry) (p : Id × Market) (rest : List (Id × Market)) :
    applyAdditions ms (p :: rest) = applyAdditions (mapSet ms p.1 p.2) rest := rfl

theorem applyRemovals_nil (ms : Registry) : applyRemovals ms [] = ms := rfl

theorem applyRemovals_cons (ms : Registry) (p : Id × Option Market)
    (rest : List (Id × Option Market)) :
    applyRemovals ms (p :: rest) = applyRemovals (mapDelete ms p.1) rest := rfl

theorem mapKeys_applyChanges (chs : List (Id × MarketChange)) (ms : Registry) :
    mapKeys (applyChanges ms chs) = mapKeys ms := by
  induction chs generalizing ms with
  | nil => rfl
  | cons p rest ih =>
    rw [applyChanges_cons, ih, mapKeys_mapModify]

theorem mapGet_applyChanges (chs : List (Id × MarketChange)) (ms : Registry) (j : Id)
    (h : (mapKeys chs).Nodup) :
    mapGet (applyChanges ms chs) j =
      match mapGet chs j with
      | some c => (mapGet ms j).map (fun mk => applyChangeFields mk c)
      | none => mapGet ms j := by
  induction chs generalizing ms with
  | nil => rfl
  | cons p rest ih =>
    obtain ⟨k, c⟩ := p
    rw [mapKeys_cons, List.nodup_cons] at h
    rw [applyChanges_cons, ih _ h.2]
    by_cases hj : j = k
    · subst hj
      have hrest : mapGet rest j = none := (mapGet_eq_none_iff rest j).mpr h.1
      rw [hrest]
      simp only [mapGet, if_pos rfl]
      exact mapGet_mapModify_self ms j _
    · have : mapGet ((k, c) :: rest) j = mapGet rest j := by
        simp [mapGet, Ne.symm hj]
      rw [this, mapGet_mapModify_ne ms k _ j hj]

theorem nodup_mapKeys_applyAdditions (adds : List (Id × Market)) (ms : Registry)
    (h : (mapKeys ms).Nodup) : (mapKeys (applyAdditions ms adds)).Nodup := by
  induction adds generalizing ms with
  | nil => exact h
  | cons p rest ih =>
    rw [applyAdditions_cons]
    exact ih _ (nodup_mapKeys_mapSet ms p.1 p.2 h)

theorem mapGet_applyAdditions (adds : List (Id × Market)) (ms : Registry) (j : Id)
    (h : (mapKeys adds).Nodup) :
    mapGet (applyAdditions ms adds) j =
      match mapGet adds j with
      | some v => some v
      | none => mapGet ms j := by
  induction adds generalizing ms with
  | nil => rfl
  | cons p rest ih =>
    obtain ⟨k, v⟩ := p
    rw [mapKeys_cons, List.nodup_cons] at h
    rw [applyAdditions_cons, ih _ h.2]
    by_cases hj : j = k
    · subst hj
      have hrest : mapGet rest j = none := (mapGet_eq_none_iff rest j).mpr h.1
      rw [hrest]
      simp only [mapGet, if_pos rfl]
      exact mapGet_mapSet_self ms j v
    · have : mapGet ((k, v) :: rest) j = mapGet rest j := by
        simp [mapGet, Ne.symm hj]
      rw [this, mapGet_mapSet_ne ms k v j hj]

theorem mapGet_applyRemovals (rems : List (Id × Option Market)) (ms : Registry) (j : Id)
    (h : (mapKeys ms).Nodup) :
    mapGet (applyRemovals ms rems) j =
      if j ∈ mapKeys rems then none else mapGet ms j := by
  induction rems generalizing ms with
  | nil => simp [applyRemovals_nil, mapKeys_nil]
  | cons p rest ih =>
    obtain ⟨k, v⟩ := p
    rw [applyRemovals_cons, ih _ (nodup_mapKeys_mapDelete ms k h)]
    by_cases hj : j = k
    · subst hj
      simp only [mapKeys_cons, List.mem_cons, true_or, if_pos]
      by_cases hr : j ∈ mapKeys rest
      · rw [if_pos hr]
      · rw [if_neg hr, mapGet_mapDelete_self ms j h]
    · by_cases hr : j ∈ mapKeys rest
      · rw [if_pos hr, if_pos]
        rw [mapKeys_cons, List.mem_cons]
        right
        exact hr
      · rw [if_neg hr, if_neg, mapGet_mapDelete_ne ms k j hj]
        rw [mapKeys_cons, List.mem_cons]
        push_neg
        exact ⟨hj, hr⟩

/-! # Lemmas about the marketsDiffHttp loop -/

theorem diffHttpLoop_nil (R : Registry) (acc : DiffAcc) :
    diffHttpLoop R [] acc = acc := rfl

theorem diffHttpLoop_cons (R : Registry) (e : Str × TickerItem) (rest : TickerResp)
    (acc : DiffAcc) :
    diffHttpLoop R (e :: rest) acc = diffHttpLoop R rest (diffHttpStep R acc e) := rfl

theorem diffHttpLoop_append (R : Registry) (S1 S2 : TickerResp) (acc : DiffAcc) :
    diffHttpLoop R (S1 ++ S2) acc = diffHttpLoop R S2 (diffHttpLoop R S1 acc) := by
  induction S1 generalizing acc with
  | nil => rfl
  | cons e rest ih =>
    rw [List.cons_append, diffHttpLoop_cons, diffHttpLoop_cons, ih]

theorem diffHttpStep_changes_preserve (R : Registry) (acc : DiffAcc)
    (e : Str × TickerItem) (j : Id) (he : e.2.id ≠ j) :
    mapGet (diffHttpStep R acc e).changes j = mapGet acc.changes j := by
  cases hget : mapGet R e.2.id with
  | some mk =>
    cases hmc : marketChange mk (marketUpdate e.2) with
    | some c =>
      simp only [diffHttpStep, hget, hmc]
      exact mapGet_mapSet_ne _ _ _ _ (Ne.symm he)
    | none => simp only [diffHttpStep, hget, hmc]
  | none => simp only [diffHttpStep, hget]

theorem diffHttpStep_additions_preserve (R : Registry) (acc : DiffAcc)
    (e : Str × TickerItem) (j : Id) (he : e.2.id ≠ j) :
    mapGet (diffHttpStep R acc e).additions j = mapGet acc.additions j := by
  cases hget : mapGet R e.2.id with
  | some mk =>
    cases hmc : marketChange mk (marketUpdate e.2) with
    | some c => simp only [diffHttpStep, hget, hmc]
    | none => simp only [diffHttpStep, hget, hmc]
  | none =>
    simp only [diffHttpStep, hget]
    exact mapGet_mapSet_ne _ _ _ _ (Ne.symm he)

theorem diffHttpStep_oldIds_preserve (R : Registry) (acc : DiffAcc)
    (e : Str × TickerItem) (j : Id) (he : e.2.id ≠ j) :
    j ∈ (diffHttpStep R acc e).oldIds ↔ j ∈ acc.oldIds := by
  cases hget : mapGet R e.2.id with
  | some mk =>
    simp only [diffHttpStep, hget]
    simp [List.mem_filter, Ne.symm he]
  | none => simp only [diffHttpStep, hget]

theorem diffHttpStep_preserve (R : Registry) (acc : DiffAcc) (e : Str × TickerItem)
    (j : Id) (he : e.2.id ≠ j) :
    mapGet (diffHttpStep R acc e).changes j = mapGet acc.changes j ∧
    mapGet (diffHttpStep R acc e).additions j = mapGet acc.additions j ∧
    (j ∈ (diffHttpStep R acc e).oldIds ↔ j ∈ acc.oldIds) :=
  ⟨diffHttpStep_changes_preserve R acc e j he,
   diffHttpStep_additions_preserve R acc e j he,
   diffHttpStep_oldIds_preserve R acc e j he⟩

theorem diffHttpLoop_preserve (R : Registry) (S : TickerResp) (acc : DiffAcc) (j : Id)
    (h : ∀ e ∈ S, e.2.id ≠ j) :
    mapGet (diffHttpLoop R S acc).changes j = mapGet acc.changes j ∧
    mapGet (diffHttpLoop R S acc).additions j = mapGet acc.additions j ∧
    (j ∈ (diffHttpLoop R S acc).oldIds ↔ j ∈ acc.oldIds) := by
  induction S generalizing acc with
  | nil => exact ⟨rfl, rfl, Iff.rfl⟩
  | cons e rest ih =>
    have he : e.2.id ≠ j := h e (List.mem_cons_self e rest)
    have hrest : ∀ e' ∈ rest, e'.2.id ≠ j :=
      fun e' he' => h e' (List.mem_cons_of_mem e he')
    obtain ⟨sc, sa, so⟩ := diffHttpStep_preserve R acc e j he
    obtain ⟨ic, ia, io⟩ := ih (diffHttpStep R acc e) hrest
    rw [diffHttpLoop_cons]
    exact ⟨ic.trans sc, ia.trans sa, io.trans so⟩

theorem diffHttpStep_oldIds_subset (R : Registry) (acc : DiffAcc) (e : Str × TickerItem)
    (j : Id) (h : j ∈ (diffHttpStep R acc e).oldIds) : j ∈ acc.oldIds := by
  cases hget : mapGet R e.2.id with
  | some mk =>
    simp only [diffHttpStep, hget] at h
    exact (List.mem_filter.mp h).1
  | none =>
    simpa only [diffHttpStep, hget] using h

theorem diffHttpLoop_oldIds_subset (R : Registry) (S : TickerResp) (acc : DiffAcc)
    (j : Id) (h : j ∈ (diffHttpLoop R S acc).oldIds) : j ∈ acc.oldIds := by
  induction S generalizing acc with
  | nil => exact h
  | cons e rest ih =>
    rw [diffHttpLoop_cons] at h
    exact diffHttpStep_oldIds_subset R acc e j (ih _ h)

theorem diffHttpStep_nodups (R : Registry) (acc : DiffAcc) (e : Str × TickerItem)
    (hc : (mapKeys acc.changes).Nodup) (ha : (mapKeys acc.additions).Nodup)
    (ho : acc.oldIds.Nodup) :
    (mapKeys (diffHttpStep R acc e).changes).Nodup ∧
    (mapKeys (diffHttpStep R acc e).additions).Nodup ∧
    (diffHttpStep R acc e).oldIds.Nodup := by
  cases hget : mapGet R e.2.id with
  | some mk =>
    cases hmc : marketChange mk (marketUpdate e.2) with
    | some c =>
      simp only [diffHttpStep, hget, hmc]
      exact ⟨nodup_mapKeys_mapSet _ _ _ hc, ha, ho.filter _⟩
    | none =>
      simp only [diffHttpStep, hget, hmc]
      exact ⟨hc, ha, ho.filter _⟩
  | none =>
    simp only [diffHttpStep, hget]
    exact ⟨hc, nodup_mapKeys_mapSet _ _ _ ha, ho⟩

theorem diffHttpLoop_nodups (R : Registry) (S : TickerResp) (acc : DiffAcc)
    (hc : (mapKeys acc.changes).Nodup) (ha : (mapKeys acc.additions).Nodup)
    (ho : acc.oldIds.Nodup) :
    (mapKeys (diffHttpLoop R S acc).changes).Nodup ∧
    (mapKeys (diffHttpLoop R S acc).additions).Nodup ∧
    (diffHttpLoop R S acc).oldIds.Nodup := by
  induction S generalizing acc with
  | nil => exact ⟨hc, ha, ho⟩
  | cons e rest ih =>
    obtain ⟨sc, sa, so⟩ := diffHttpStep_nodups R acc e hc ha ho
    rw [diffHttpLoop_cons]
    exact ih _ sc sa so

theorem diffHttpStep_changes_mem (R : Registry) (acc : DiffAcc) (e : Str × TickerItem)
    (j : Id) (h : j ∈ mapKeys (diffHttpStep R acc e).changes) :
    j ∈ mapKeys acc.changes ∨ ∃ mk, mapGet R j = some mk := by
  cases hget : mapGet R e.2.id with
  | some mk =>
    cases hmc : marketChange mk (marketUpdate e.2) with
    | some c =>
      simp only [diffHttpStep, hget, hmc] at h
      rcases (mem_mapKeys_mapSet _ _ _ _).mp h with hj | hj
      · subst hj
        exact Or.inr ⟨mk, hget⟩
      · exact Or.inl hj
    | none =>
      simp only [diffHttpStep, hget, hmc] at h
      exact Or.inl h
  | none =>
    simp only [diffHttpStep, hget] at h
    exact Or.inl h

theorem diffHttpLoop_changes_mem (R : Registry) (S : TickerResp) (acc : DiffAcc)
    (j : Id) (h : j ∈ mapKeys (diffHttpLoop R S acc).changes) :
    j ∈ mapKeys acc.changes ∨ ∃ mk, mapGet R j = some mk := by
  induction S generalizing acc with
  | nil => exact Or.inl h
  | cons e rest ih =>
    rw [diffHttpLoop_cons] at h
    rcases ih _ h with h' | h'
    · exact diffHttpStep_changes_mem R acc e j h'
    · exact Or.inr h'

theorem diffHttpStep_additions_mem (R : Registry) (acc : DiffAcc) (e : Str × TickerItem)
    (j : Id) (h : j ∈ mapKeys (diffHttpStep R acc e).additions) :
    j ∈ mapKeys acc.additions ∨ mapGet R j = none := by
  cases hget : mapGet R e.2.id with
  | some mk =>
    cases hmc : marketChange mk (marketUpdate e.2) with
    | some c =>
      simp only [diffHttpStep, hget, hmc] at h
      exact Or.inl h
    | none =>
      simp only [diffHttpStep, hget, hmc] at h
      exact Or.inl h
  | none =>
    simp only [diffHttpStep, hget] at h
    rcases (mem_mapKeys_mapSet _ _ _ _).mp h with hj | hj
    · subst hj
      exact Or.inr hget
    · exact Or.inl hj

theorem diffHttpLoop_additions_mem (R : Registry) (S : TickerResp) (acc : DiffAcc)
    (j : Id) (h : j ∈ mapKeys (diffHttpLoop R S acc).additions) :
    j ∈ mapKeys acc.additions ∨ mapGet R j = none := by
  induction S generalizing acc with
  | nil => exact Or.inl h
  | cons e rest ih =>
    rw [diffHttpLoop_cons] at h
    rcases ih _ h with h' | h'
    · exact diffHttpStep_additions_mem R acc e j h'
    · exact Or.inr h'

theorem diffHttpStep_changes_oldIds_disj (R : Registry) (acc : DiffAcc)
    (e : Str × TickerItem) (h : ∀ j ∈ mapKeys acc.changes, j ∉ acc.oldIds) :
    ∀ j ∈ mapKeys (diffHttpStep R acc e).changes, j ∉ (diffHttpStep R acc e).oldIds := by
  intro j hj hmem
  have hold : j ∈ acc.oldIds := diffHttpStep_oldIds_subset R acc e j hmem
  cases hget : mapGet R e.2.id with
  | some mk =>
    cases hmc : marketChange mk (marketUpdate e.2) with
    | some c =>
      simp only [diffHttpStep, hget, hmc] at hj hmem
      rcases (mem_mapKeys_mapSet _ _ _ _).mp hj with hj' | hj'
      · subst hj'
        have := (List.mem_filter.mp hmem).2
        simp at this
      · exact h j hj' hold
    | none =>
      simp only [diffHttpStep, hget, hmc] at hj
      exact h j hj hold
  | none =>
    simp only [diffHttpStep, hget] at hj
    exact h j hj hold

theorem diffHttpLoop_changes_oldIds_disj (R : Registry) (S : TickerResp) (acc : DiffAcc)
    (h : ∀ j ∈ mapKeys acc.changes, j ∉ acc.oldIds) :
    ∀ j ∈ mapKeys (diffHttpLoop R S acc).changes, j ∉ (diffHttpLoop R S acc).oldIds := by
  induction S generalizing acc with
  | nil => exact h
  | cons e rest ih =>
    rw [diffHttpLoop_cons]
    exact ih _ (diffHttpStep_changes_oldIds_disj R acc e h)

/-- The ids of the entries of a snapshot, in iteration order. -/
def respIds (S : TickerResp) : List Id := S.map (fun e => e.2.id)

theorem diffHttpLoop_hit (R : Registry) (S : TickerResp)
    (hS : (respIds S).Nodup) (name : Str) (t : TickerItem)
    (hmem : (name, t) ∈ S) (mk : Market) (hget : mapGet R t.id = some mk) :
    mapGet (diffHttpLoop R S { changes := [], additions := [], oldIds := mapKeys R }).changes t.id
      = marketChange mk (marketUpdate t) ∧
    mapGet (diffHttpLoop R S { changes := [], additions := [], oldIds := mapKeys R }).additions t.id
      = none ∧
    t.id ∉ (diffHttpLoop R S { changes := [], additions := [], oldIds := mapKeys R }).oldIds := by
  obtain ⟨P, Q, rfl⟩ := List.append_of_mem hmem
  have hids : respIds (P ++ (name, t) :: Q) = respIds P ++ t.id :: respIds Q := by
    simp [respIds]
  rw [hids] at hS
  rw [List.nodup_append] at hS
  obtain ⟨hSP, hSQ, hdisj⟩ := hS
  have htQ : t.id ∉ respIds Q := (List.nodup_cons.mp hSQ).1
  have hP : ∀ e ∈ P, e.2.id ≠ t.id := by
    intro e heP heq
    have : e.2.id ∈ respIds P := List.mem_map_of_mem _ heP
    exact hdisj this (heq ▸ List.mem_cons_self t.id (respIds Q))
  have hQ : ∀ e ∈ Q, e.2.id ≠ t.id := by
    intro e heQ heq
    exact htQ (heq ▸ List.mem_map_of_mem _ heQ)
  rw [diffHttpLoop_append, diffHttpLoop_cons]
  obtain ⟨pc, pa, po⟩ := diffHttpLoop_preserve R P
    { changes := [], additions := [], oldIds := mapKeys R } t.id hP
  obtain ⟨qc, qa, qo⟩ := diffHttpLoop_preserve R Q
    (diffHttpStep R (diffHttpLoop R P { changes := [], additions := [], oldIds := mapKeys R })
      (name, t)) t.id hQ
  refine ⟨?_, ?_, ?_⟩
  · rw [qc]
    simp only [diffHttpStep, hget]
    cases hmc : marketChange mk (marketUpdate t) with
    | some c =>
      simp only [hmc]
      exact mapGet_mapSet_self _ _ _
    | none =>
      simp only [hmc]
      rw [pc]
      rfl
  · rw [qa]
    simp only [diffHttpStep, hget]
    rw [pa]
    rfl
  · rw [qo]
    simp only [diffHttpStep, hget]
    intro hmem'
    have := (List.mem_filter.mp hmem').2
    simp at this

theorem diffHttpLoop_miss (R : Registry) (S : TickerResp)
    (hS : (respIds S).Nodup) (name : Str) (t : TickerItem)
    (hmem : (name, t) ∈ S) (hget : mapGet R t.id = none) :
    mapGet (diffHttpLoop R S { changes := [], additions := [], oldIds := mapKeys R }).changes t.id
      = none ∧
    mapGet (diffHttpLoop R S { changes := [], additions := [], oldIds := mapKeys R }).additions t.id
      = some (createMarket t.id name t) ∧
    t.id ∉ (diffHttpLoop R S { changes := [], additions := [], oldIds := mapKeys R }).oldIds := by
  obtain ⟨P, Q, rfl⟩ := List.append_of_mem hmem
  have hids : respIds (P ++ (name, t) :: Q) = respIds P ++ t.id :: respIds Q := by
    simp [respIds]
  rw [hids] at hS
  rw [List.nodup_append] at hS
  obtain ⟨hSP, hSQ, hdisj⟩ := hS
  have htQ : t.id ∉ respIds Q := (List.nodup_cons.mp hSQ).1
  have hP : ∀ e ∈ P, e.2.id ≠ t.id := by
    intro e heP heq
    have : e.2.id ∈ respIds P := List.mem_map_of_mem _ heP
    exact hdisj this (heq ▸ List.mem_cons_self t.id (respIds Q))
  have hQ : ∀ e ∈ Q, e.2.id ≠ t.id := by
    intro e heQ heq
    exact htQ (heq ▸ List.mem_map_of_mem _ heQ)
  rw [diffHttpLoop_append, diffHttpLoop_cons]
  obtain ⟨pc, pa, po⟩ := diffHttpLoop_preserve R P
    { changes := [], additions := [], oldIds := mapKeys R } t.id hP
  obtain ⟨qc, qa, qo⟩ := diffHttpLoop_preserve R Q
    (diffHttpStep R (diffHttpLoop R P { changes := [], additions := [], oldIds := mapKeys R })
      (name, t)) t.id hQ
  refine ⟨?_, ?_, ?_⟩
  · rw [qc]
    simp only [diffHttpStep, hget]
    rw [pc]
    rfl
  · rw [qa]
    simp only [diffHttpStep, hget]
    rw [mapGet_mapSet_self]
  · rw [qo]
    simp only [diffHttpStep, hget]
    rw [po]
    intro hmem'
    exact (mapGet_eq_none_iff R t.id).mp hget hmem'

/-! # Lemmas for the all-match / null-diff direction -/

theorem diffHttpLoop_unchanged (R : Registry) (S : TickerResp) (acc : DiffAcc)
    (h : ∀ e ∈ S, (mapGet R e.2.id).map trackedOf = some (marketUpdate e.2)) :
    (diffHttpLoop R S acc).changes = acc.changes ∧
    (diffHttpLoop R S acc).additions = acc.additions := by
  induction S generalizing acc with
  | nil => exact ⟨rfl, rfl⟩
  | cons e rest ih =>
    have he := h e (List.mem_cons_self e rest)
    cases hg : mapGet R e.2.id with
    | none =>
      rw [hg] at he
      simp at he
    | some mk =>
      rw [hg] at he
      have htr : trackedOf mk = marketUpdate e.2 := by
        simpa using he
      have hmc : marketChange mk (marketUpdate e.2) = none := by
        rw [marketChange_eq_none_iff, ← htr]
        exact ⟨rfl, rfl⟩
      have hstep : diffHttpStep R acc e =
          { changes := acc.changes, additions := acc.additions,
            oldIds := acc.oldIds.filter (fun i => decide (i ≠ e.2.id)) } := by
        simp only [diffHttpStep, hg, hmc]
      rw [diffHttpLoop_cons, hstep]
      exact ih _ (fun e' he' => h e' (List.mem_cons_of_mem e he'))

theorem diffHttpLoop_oldIds_covered (R : Registry) (S : TickerResp) :
    ∀ (acc : DiffAcc) (j : Id) (e : Str × TickerItem), e ∈ S → e.2.id = j →
      (∃ mk, mapGet R e.2.id = some mk) → j ∉ (diffHttpLoop R S acc).oldIds := by
  induction S with
  | nil =>
    intro acc j e heS _ _
    exact absurd heS (List.not_mem_nil e)
  | cons e' rest ih =>
    intro acc j e heS hej hsome
    rw [diffHttpLoop_cons]
    rcases List.mem_cons.mp heS with rfl | hrest
    · obtain ⟨mk, hget⟩ := hsome
      intro hmem
      have hsub : j ∈ (diffHttpStep R acc e).oldIds :=
        diffHttpLoop_oldIds_subset R rest _ j hmem
      simp only [diffHttpStep, hget] at hsub
      have hd := (List.mem_filter.mp hsub).2
      rw [hej] at hd
      simp at hd
    · exact ih (diffHttpStep R acc e') j e hrest hej hsome

theorem marketsDiff_eq_none_iff (c : List (Id × MarketChange)) (a : List (Id × Market))
    (r : List (Id × Option Market)) :
    marketsDiff c a r = none ↔ c = [] ∧ a = [] ∧ r = [] := by
  by_cases h : c.length = 0 ∧ a.length = 0 ∧ r.length = 0
  · rw [marketsDiff, if_pos h]
    constructor
    · intro _
      exact ⟨List.length_eq_zero.mp h.1, List.length_eq_zero.mp h.2.1,
             List.length_eq_zero.mp h.2.2⟩
    · intro _
      rfl
  · rw [marketsDiff, if_neg h]
    constructor
    · intro hcon
      exact Option.noConfusion hcon
    · intro hcon
      exact absurd ⟨by rw [hcon.1]; rfl, by rw [hcon.2.1]; rfl,
                    by rw [hcon.2.2]; rfl⟩ h
    
theorem marketsDiff_eq_some (c : List (Id × MarketChange)) (a : List (Id × Market))
    (r : List (Id × Option Market)) (d : Diff) (h : marketsDiff c a r = some d) :
    d = { changes := c, additions := a, removals := r } := by
  by_cases hc : c.length = 0 ∧ a.length = 0 ∧ r.length = 0
  · rw [marketsDiff, if_pos hc] at h
    exact Option.noConfusion h
  · rw [marketsDiff, if_neg hc] at h
    exact (Option.some_inj.mp h).symm

theorem mapKeys_removals (R : Registry) (ids : List Id) :
    mapKeys (ids.map (fun i => (i, mapGet R i))) = ids := by
  induction ids with
  | nil => rfl
  | cons i rest ih =>
    rw [List.map_cons, mapKeys_cons, ih]

/-! # Lemmas about the marketsDiffWs loop -/

theorem diffWsLoop_nil (R : Registry) (acc : WsAcc) : diffWsLoop R [] acc = acc := rfl

theorem diffWsLoop_cons (R : Registry) (u : WsTickerItem) (rest : List WsTickerItem)
    (acc : WsAcc) :
    diffWsLoop R (u :: rest) acc = diffWsLoop R rest (diffWsStep R acc u) := rfl

theorem diffWsStep_changes_mem (R : Registry) (acc : WsAcc) (u : WsTickerItem)
    (j : Id) (h : j ∈ mapKeys (diffWsStep R acc u).changes) :
    j ∈ mapKeys acc.changes ∨ ∃ mk, mapGet R j = some mk := by
  cases hget : mapGet R u.id with
  | some mk =>
    cases hmc : marketChange mk
        { isActive := if u.isFrozen = 1 then false else true, last := u.last } with
    | some c =>
      simp only [diffWsStep, hget, hmc] at h
      rcases (mem_mapKeys_mapSet _ _ _ _).mp h with hj | hj
      · subst hj
        exact Or.inr ⟨mk, hget⟩
      · exact Or.inl hj
    | none =>
      simp only [diffWsStep, hget, hmc] at h
      exact Or.inl h
  | none =>
    simp only [diffWsStep, hget] at h
    exact Or.inl h

theorem diffWsStep_additions_mem (R : Registry) (acc : WsAcc) (u : WsTickerItem)
    (j : Id) (h : j ∈ mapKeys (diffWsStep R acc u).additions) :
    j ∈ mapKeys acc.additions ∨ mapGet R j = none := by
  cases hget : mapGet R u.id with
  | some mk =>
    cases hmc : marketChange mk
        { isActive := if u.isFrozen = 1 then false else true, last := u.last } with
    | some c =>
      simp only [diffWsStep, hget, hmc] at h
      exact Or.inl h
    | none =>
      simp only [diffWsStep, hget, hmc] at h
      exact Or.inl h
  | none =>
    simp only [diffWsStep, hget] at h
    rcases (mem_mapKeys_mapSet _ _ _ _).mp h with hj | hj
    · subst hj
      exact Or.inr hget
    · exact Or.inl hj

theorem diffWsLoop_changes_mem (R : Registry) (items : List WsTickerItem) (acc : WsAcc)
    (j : Id) (h : j ∈ mapKeys (diffWsLoop R items acc).changes) :
    j ∈ mapKeys acc.changes ∨ ∃ mk, mapGet R j = some mk := by
  induction items generalizing acc with
  | nil => exact Or.inl h
  | cons u rest ih =>
    rw [diffWsLoop_cons] at h
    rcases ih _ h with h' | h'
    · exact diffWsStep_changes_mem R acc u j h'
    · exact Or.inr h'

theorem diffWsLoop_additions_mem (R : Registry) (items : List WsTickerItem) (acc : WsAcc)
    (j : Id) (h : j ∈ mapKeys (diffWsLoop R items acc).additions) :
    j ∈ mapKeys acc.additions ∨ mapGet R j = none := by
  induction items generalizing acc with
  | nil => exact Or.inl h
  | cons u rest ih =>
    rw [diffWsLoop_cons] at h
    rcases ih _ h with h' | h'
    · exact diffWsStep_additions_mem R acc u j h'
    · exact Or.inr h'

/-! # Lemmas about the WebSocket endpoint -/

theorem resetCloseTimer_fst (ep : WsEndpoint) (d : Nat) :
    (resetCloseTimer ep d).1.ws = ep.ws ∧ (resetCloseTimer ep d).1.queue = ep.queue ∧
    (resetCloseTimer ep d).1.noSendTimeout = ep.noSendTimeout := by
  unfold resetCloseTimer
  split <;> exact ⟨rfl, rfl, rfl⟩

theorem transmitsOf_resetCloseTimer (ep : WsEndpoint) (d : Nat) :
    transmitsOf (resetCloseTimer ep d).2 = [] := by
  unfold resetCloseTimer
  split <;> rfl

theorem wsIsOpen_resetCloseTimer (ep : WsEndpoint) (d : Nat) :
    wsIsOpen (resetCloseTimer ep d).1 = wsIsOpen ep := by
  unfold wsIsOpen
  rw [(resetCloseTimer_fst ep d).1]

theorem sendWs_open_eq (ep : WsEndpoint) (m : WsMsg) (h : wsIsOpen ep = true) :
    sendWs ep m = ((resetCloseTimer ep ep.noSendTimeout).1,
                   .transmit m :: (resetCloseTimer ep ep.noSendTimeout).2) := by
  rw [sendWs, if_neg]
  rw [h]
  simp

theorem transmitsOf_append (a b : List WsAct) :
    transmitsOf (a ++ b) = transmitsOf a ++ transmitsOf b := by
  simp [transmitsOf]

theorem drainLoop_open (q : List WsMsg) (ep : WsEndpoint) (h : wsIsOpen ep = true) :
    transmitsOf (drainLoop ep q).2 = q ∧ wsIsOpen (drainLoop ep q).1 = true := by
  induction q generalizing ep with
  | nil => exact ⟨rfl, h⟩
  | cons m rest ih =>
    have hopen' : wsIsOpen (sendWs ep m).1 = true := by
      rw [sendWs_open_eq ep m h]
      rw [wsIsOpen_resetCloseTimer]
      exact h
    obtain ⟨iht, iho⟩ := ih (sendWs ep m).1 hopen'
    constructor
    · show transmitsOf ((sendWs ep m).2 ++ (drainLoop (sendWs ep m).1 rest).2) = m :: rest
      rw [transmitsOf_append, iht, sendWs_open_eq ep m h]
      show transmitsOf (.transmit m :: (resetCloseTimer ep ep.noSendTimeout).2) ++ rest
        = m :: rest
      have : transmitsOf (.transmit m :: (resetCloseTimer ep ep.noSendTimeout).2)
          = m :: transmitsOf (resetCloseTimer ep ep.noSendTimeout).2 := rfl
      rw [this, transmitsOf_resetCloseTimer]
      rfl
    · exact iho

theorem wsIsOpen_wsMarkOpen (ep : WsEndpoint) (c : WsConn) (h : ep.ws = some c) :
    wsIsOpen (wsMarkOpen ep) = true := by
  simp [wsMarkOpen, wsIsOpen, h]

/-! # Lemmas about the promise loop -/

theorem runLoop_nil (loop : PromiseLoop) : runLoop loop [] = (loop, 0) := rfl

theorem runLoop_cons (loop : PromiseLoop) (e : LoopEvt) (rest : List LoopEvt) :
    runLoop loop (e :: rest)
      = ((runLoop (loopStep loop e).1 rest).1,
         (loopStep loop e).2 + (runLoop (loopStep loop e).1 rest).2) := rfl

theorem loopStep_disabled (loop : PromiseLoop) (e : LoopEvt)
    (he : loop.enabled = false) (ht : loop.timer = none) : loopStep loop e = (loop, 0) := by
  cases e with
  | timerFired id => simp [loopStep, ht]
  | settled fresh => simp [loopStep, promiseLoopSettle, he]

theorem runLoop_stopped (loop : PromiseLoop) (evts : List LoopEvt)
    (he : loop.enabled = false) (ht : loop.timer = none) : (runLoop loop evts).2 = 0 := by
  induction evts with
  | nil => rfl
  | cons e rest ih =>
    rw [runLoop_cons, loopStep_disabled loop e he ht]
    simpa using ih

/-! # Lemmas about format -/

theorem leadsWith_append_self (p x : Str) : leadsWith p (p ++ x) = true := by
  induction p with
  | nil => rfl
  | cons c rest ih => simp [leadsWith, ih]

theorem replaceFirst_of_leads (pat rep s : Str) (h : leadsWith pat s = true) :
    replaceFirst pat rep s = rep ++ s.drop pat.length := by
  cases s with
  | nil => simp [replaceFirst, h]
  | cons c rest => simp [replaceFirst, h]

theorem replaceFirst_first_occurrence (pat rep a b : Str)
    (h : ∀ i, i < a.length → leadsWith pat ((a ++ pat ++ b).drop i) = false) :
    replaceFirst pat rep (a ++ pat ++ b) = a ++ rep ++ b := by
  induction a with
  | nil =>
    simp only [List.nil_append]
    rw [replaceFirst_of_leads pat rep (pat ++ b) (leadsWith_append_self pat b)]
    rw [List.drop_left]
  | cons c a' ih =>
    have h0 : leadsWith pat (c :: (a' ++ pat ++ b)) = false := by
      have := h 0 (Nat.succ_pos a'.length)
      simpa using this
    have ih' := ih (fun i hi => by
      have := h (i + 1) (Nat.succ_lt_succ hi)
      simpa using this)
    show replaceFirst pat rep (c :: (a' ++ pat ++ b)) = c :: (a' ++ rep ++ b)
    rw [replaceFirst, if_neg (by rw [h0]; simp), ih']

theorem format_single (template : Str) (k v : Str) :
    format template [(k, v)] = replaceFirst (placeholder k) v template := rfl

/-! # Further helper lemmas for the claim proofs -/

theorem marketsDiffHttp_eq (R : Registry) (S : TickerResp) :
    marketsDiffHttp R S =
      marketsDiff
        (diffHttpLoop R S { changes := [], additions := [], oldIds := mapKeys R }).changes
        (diffHttpLoop R S { changes := [], additions := [], oldIds := mapKeys R }).additions
        ((diffHttpLoop R S { changes := [], additions := [], oldIds := mapKeys R }).oldIds.map
          (fun i => (i, mapGet R i))) := rfl

theorem marketsDiffWs_eq (R : Registry) (items : List WsTickerItem) :
    marketsDiffWs R items =
      marketsDiff (diffWsLoop R items { changes := [], additions := [] }).changes
        (diffWsLoop R items { changes := [], additions := [] }).additions [] := rfl

theorem marketsDiff_eq_some_of_ne (c : List (Id × MarketChange)) (a : List (Id × Market))
    (r : List (Id × Option Market)) (h : ¬(c = [] ∧ a = [] ∧ r = [])) :
    marketsDiff c a r = some { changes := c, additions := a, removals := r } := by
  rw [marketsDiff, if_neg]
  intro hcon
  exact h ⟨List.length_eq_zero.mp hcon.1, List.length_eq_zero.mp hcon.2.1,
           List.length_eq_zero.mp hcon.2.2⟩

theorem mapGet_applyChanges_none (chs : List (Id × MarketChange)) (ms : Registry) (j : Id)
    (h : (mapKeys chs).Nodup) (hj : mapGet chs j = none) :
    mapGet (applyChanges ms chs) j = mapGet ms j := by
  rw [mapGet_applyChanges chs ms j h, hj]

theorem mapGet_applyChanges_some (chs : List (Id × MarketChange)) (ms : Registry) (j : Id)
    (c : MarketChange) (h : (mapKeys chs).Nodup) (hj : mapGet chs j = some c) :
    mapGet (applyChanges ms chs) j = (mapGet ms j).map (fun mk => applyChangeFields mk c) := by
  rw [mapGet_applyChanges chs ms j h, hj]

theorem mapGet_applyAdditions_none (adds : List (Id × Market)) (ms : Registry) (j : Id)
    (h : (mapKeys adds).Nodup) (hj : mapGet adds j = none) :
    mapGet (applyAdditions ms adds) j = mapGet ms j := by
  rw [mapGet_applyAdditions adds ms j h, hj]

theorem mapGet_applyAdditions_some (adds : List (Id × Market)) (ms : Registry) (j : Id)
    (v : Market) (h : (mapKeys adds).Nodup) (hj : mapGet adds j = some v) :
    mapGet (applyAdditions ms adds) j = some v := by
  rw [mapGet_applyAdditions adds ms j h, hj]

theorem trackedOf_eq_of_fields (mk : Market) (u : MarketUpd)
    (h1 : u.isActive = mk.isActive) (h2 : u.last = mk.last) : trackedOf mk = u := by
  rw [trackedOf, ← h1, ← h2]

/-! # Claim theorems -/

/-- C4: building the registry from the single-entry snapshot
`BTC_ETH : id 1, last "0.05", isFrozen "0"` on an empty registry produces
exactly one Market with id 1, base "ETH", quote "BTC", label "ETH/BTC",
last "0.05" and isActive true; in general the pair name is split on the
underscore with the two parts swapped into base/quote, and isActive is true
exactly when isFrozen is not the string "1". -/
theorem createMarkets_scenarioA :
    createMarkets [(str "BTC_ETH", { id := 1, last := str "0.05", isFrozen := str "0" })]
      = [(1, { id := 1, base := str "ETH", quote := str "BTC",
               label := str "ETH/BTC", last := str "0.05", isActive := true })] ∧
    ∀ t : TickerItem, ((marketUpdate t).isActive = true ↔ t.isFrozen ≠ str "1") := by
  constructor
  · rfl
  · intro t
    by_cases h : t.isFrozen = str "1" <;> simp [marketUpdate, h]

/-- C5: a request issued while the endpoint is already fetching fails
immediately with RequestIgnored, is not queued, and leaves the endpoint state
(and hence the first request and its in-flight bookkeeping) untouched. -/
theorem asyncFetchJson_singleFlight (ep : Endpoint) (params : List (Str × Str))
    (fresh : Nat) (h : ep.fetching = true) :
    asyncFetchJson ep params fresh = (.requestIgnored, ep) := by
  rw [asyncFetchJson, if_pos h]

theorem asyncFetchJson_singleFlight_witness :
    busyEndpoint.fetching = true ∧
    asyncFetchJson busyEndpoint [] 7 = (.requestIgnored, busyEndpoint) :=
  ⟨rfl, asyncFetchJson_singleFlight busyEndpoint [] 7 rfl⟩

/-- C6 counterexample: calling updateMarkets with a null diff on the scenario
A registry returns normally with the registry unchanged — a silent no-op, not
a loud failure, refuting the claim that a null diff raises. -/
theorem updateMarkets_null_counterexample :
    updateMarkets registryA none = registryA := rfl

/-- C6 amended: `updateMarkets(markets, diff)` with a null diff silently
returns at once (`if (!diff) return`), leaving the registry unchanged;
callers such as asyncUpdateMarkets rely on this and pass possibly-null diffs
without checking. -/
theorem updateMarkets_null_noop (R : Registry) : updateMarkets R none = R := rfl

/-- C7 counterexample: after send(m1) on a Closed endpoint the socket is
Connecting, and a second send while still Connecting emits another
connection attempt (openWs is called whenever the socket is not OPEN),
refuting the claim that opening begins only when the state is Closed. -/
theorem sendWs_connecting_counterexample :
    wsEndpointD1.ws = some { connId := 0, readyState := .connecting } ∧
    (sendWs wsEndpointD1 20).2 = [WsAct.openAttempt 1] :=
  ⟨rfl, rfl⟩

/-- C7 amended: send while the connection is not Open (whether Closed or
Connecting) enqueues the message at the end of the queue and returns without
transmitting, and it begins opening a new underlying connection in every such
case — a send while Connecting starts another connection attempt that
replaces the in-progress socket. -/
theorem sendWs_notOpen (ep : WsEndpoint) (m : WsMsg) (h : wsIsOpen ep = false) :
    sendWs ep m
      = ({ ep with
            queue := ep.queue ++ [m],
            ws := some { connId := ep.nextConnId, readyState := .connecting },
            nextConnId := ep.nextConnId + 1 },
         [.openAttempt ep.nextConnId]) := by
  rw [sendWs, if_pos h]
  rfl

theorem sendWs_notOpen_witness :
    wsIsOpen wsEndpointD1 = false ∧
    sendWs wsEndpointD1 20
      = ({ wsEndpointD1 with
            queue := wsEndpointD1.queue ++ [20],
            ws := some { connId := wsEndpointD1.nextConnId, readyState := .connecting },
            nextConnId := wsEndpointD1.nextConnId + 1 },
         [.openAttempt wsEndpointD1.nextConnId]) :=
  ⟨rfl, sendWs_notOpen wsEndpointD1 20 rfl⟩

/-- C8 counterexample: in scenario D (send m1 while Closed, send m2 while
Connecting, then the open event), the onopen trace contains an idle-close
timer arm action strictly before the transmission of m2 — the timer is armed
during the drain, refuting "armed only after that drain completes". -/
theorem wsOnOpen_timer_counterexample :
    (wsOnOpen wsEndpointD2).2[2]? = some (WsAct.armTimer 60000) ∧
    (wsOnOpen wsEndpointD2).2[3]? = some (WsAct.transmit 20) :=
  ⟨rfl, rfl⟩

/-- C8 amended: on the Connecting-to-Open transition the queued messages are
transmitted in their original FIFO order (the drain transmits exactly the
queue, and a message sent while not open is appended after the existing
queue, never ahead of it); the idle-close timer is re-armed at every
transmission during the drain and once more after it, so the trace of
scenario D transmits m1 then m2 and its final action is a timer arm. -/
theorem wsOnOpen_drain_fifo :
    (∀ (ep : WsEndpoint) (c : WsConn), ep.ws = some c →
       transmitsOf (wsOnOpen ep).2 = ep.queue) ∧
    (∀ (ep : WsEndpoint) (m : WsMsg), wsIsOpen ep = false →
       (sendWs ep m).1.queue = ep.queue ++ [m]) ∧
    transmitsOf (wsOnOpen wsEndpointD2).2 = [10, 20] ∧
    ((wsOnOpen wsEndpointD2).2).getLast? = some (WsAct.armTimer 60000) := by
  refine ⟨?_, ?_, ?_, ?_⟩
  · intro ep c h
    have hopen1 : wsIsOpen { wsMarkOpen ep with queue := [] } = true := by
      have := wsIsOpen_wsMarkOpen ep c h
      unfold wsIsOpen at this ⊢
      exact this
    obtain ⟨ht, _⟩ := drainLoop_open (wsMarkOpen ep).queue
      { wsMarkOpen ep with queue := [] } hopen1
    show transmitsOf
        ((drainLoop { wsMarkOpen ep with queue := [] } (wsMarkOpen ep).queue).2 ++
         (resetCloseTimer
            (drainLoop { wsMarkOpen ep with queue := [] } (wsMarkOpen ep).queue).1
            (drainLoop { wsMarkOpen ep with queue := [] } (wsMarkOpen ep).queue).1.noSendTimeout).2)
      = ep.queue
    rw [transmitsOf_append, ht, transmitsOf_resetCloseTimer, List.append_nil]
    rfl
  · intro ep m h
    rw [sendWs, if_pos h]
    rfl
  · rfl
  · rfl

theorem wsOnOpen_drain_fifo_witness :
    wsEndpointD2.ws = some { connId := 1, readyState := .connecting } ∧
    transmitsOf (wsOnOpen wsEndpointD2).2 = wsEndpointD2.queue :=
  ⟨rfl, wsOnOpen_drain_fifo.1 wsEndpointD2 { connId := 1, readyState := .connecting } rfl⟩

/-- C9: once stop (setPromiseLoopEnabled false) returns — the enabled flag is
cleared and the pending timer handle is cleared — no sequence of later events
(timer firings or settlements of cycles that were in flight) ever causes
another work-function invocation; in particular the settle handler of an
in-flight cycle re-arms the timer only when the enabled flag is still true,
so on a stopped loop it returns the state unchanged and schedules nothing. -/
theorem promiseLoop_stop_guarantee :
    (∀ (loop : PromiseLoop) (evts : List LoopEvt),
       (runLoop (setPromiseLoopEnabled loop false).1 evts).2 = 0) ∧
    (∀ (loop : PromiseLoop) (fresh : Nat), loop.enabled = false →
       promiseLoopSettle loop fresh = (loop, false)) := by
  constructor
  · intro loop evts
    exact runLoop_stopped _ evts rfl rfl
  · intro loop fresh h
    simp [promiseLoopSettle, h]

theorem promiseLoop_stop_guarantee_witness :
    stoppedLoop.enabled = false ∧
    promiseLoopSettle stoppedLoop 7 = (stoppedLoop, false) :=
  ⟨rfl, promiseLoop_stop_guarantee.2 stoppedLoop 7 rfl⟩

/-- C10: format substitutes a parameter at most once: when the first
occurrence of the placeholder of key k in the template is at position
`a.length` (no occurrence starts earlier), the result replaces exactly that
occurrence and leaves the rest — in particular a second occurrence of the
same placeholder, inside b — literal. -/
theorem format_first_occurrence_only (a b k v : Str)
    (h : ∀ i, i < a.length →
       leadsWith (placeholder k) ((a ++ placeholder k ++ b).drop i) = false) :
    format (a ++ placeholder k ++ b) [(k, v)] = a ++ v ++ b := by
  rw [format_single]
  exact replaceFirst_first_occurrence (placeholder k) v a b h

theorem format_first_occurrence_only_witness :
    (∀ i, i < (str "x=").length →
       leadsWith (placeholder (str "p"))
         ((str "x=" ++ placeholder (str "p") ++ (str "&y=" ++ placeholder (str "p"))).drop i)
         = false) ∧
    format (str "x=" ++ placeholder (str "p") ++ (str "&y=" ++ placeholder (str "p")))
        [(str "p", str "1")]
      = str "x=" ++ str "1" ++ (str "&y=" ++ placeholder (str "p")) :=
  ⟨by decide,
   format_first_occurrence_only (str "x=") (str "&y=" ++ placeholder (str "p"))
     (str "p") (str "1") (by decide)⟩

/-- C2: for every registry and every input (HTTP snapshot or WS push update),
no id of the resulting Diff appears in two of the three mappings changes,
additions, removals — so every id touched by the Diff lies in exactly one of
them (changed ids are registry hits, added ids are registry misses, removed
ids are unseen registry keys). -/
theorem diff_id_partition :
    (∀ (R : Registry) (S : TickerResp) (d : Diff),
       marketsDiffHttp R S = some d → DiffPartition d) ∧
    (∀ (R : Registry) (items : List WsTickerItem) (d : Diff),
       marketsDiffWs R items = some d → DiffPartition d) := by
  constructor
  · intro R S d h
    rw [marketsDiffHttp_eq] at h
    obtain rfl := marketsDiff_eq_some _ _ _ d h
    refine ⟨?_, ?_, ?_⟩
    · intro j hjc hja
      rcases diffHttpLoop_changes_mem R S _ j hjc with h0 | ⟨mk, hmk⟩
      · exact absurd h0 (List.not_mem_nil j)
      · rcases diffHttpLoop_additions_mem R S _ j hja with h1 | h1
        · exact absurd h1 (List.not_mem_nil j)
        · rw [h1] at hmk
          exact Option.noConfusion hmk
    · intro j hjc hjr
      rw [mapKeys_removals] at hjr
      refine diffHttpLoop_changes_oldIds_disj R S _ ?_ j hjc hjr
      intro j' hj'
      exact absurd hj' (List.not_mem_nil j')
    · intro j hja hjr
      rw [mapKeys_removals] at hjr
      have hsub := diffHttpLoop_oldIds_subset R S _ j hjr
      rcases diffHttpLoop_additions_mem R S _ j hja with h1 | h1
      · exact absurd h1 (List.not_mem_nil j)
      · exact (mapGet_eq_none_iff R j).mp h1 hsub
  · intro R items d h
    rw [marketsDiffWs_eq] at h
    obtain rfl := marketsDiff_eq_some _ _ _ d h
    refine ⟨?_, ?_, ?_⟩
    · intro j hjc hja
      rcases diffWsLoop_changes_mem R items _ j hjc with h0 | ⟨mk, hmk⟩
      · exact absurd h0 (List.not_mem_nil j)
      · rcases diffWsLoop_additions_mem R items _ j hja with h1 | h1
        · exact absurd h1 (List.not_mem_nil j)
        · rw [h1] at hmk
          exact Option.noConfusion hmk
    · intro j hjc hjr
      exact absurd hjr (List.not_mem_nil j)
    · intro j hja hjr
      exact absurd hjr (List.not_mem_nil j)

theorem diff_id_partition_witness :
    marketsDiffHttp registryA snapshotB = some diffB ∧ DiffPartition diffB :=
  ⟨by decide, diff_id_partition.1 registryA snapshotB diffB (by decide)⟩

/-- C3: when every snapshot entry hits a registry market whose tracked fields
(price and active flag) already match, and every registry id occurs in the
snapshot, the HTTP diff is null; and in general marketsDiff is null exactly
when changes, additions and removals are all empty. -/
theorem marketsDiffHttp_null :
    (∀ (R : Registry) (S : TickerResp),
       (∀ e ∈ S, (mapGet R e.2.id).map trackedOf = some (marketUpdate e.2)) →
       (∀ j ∈ mapKeys R, ∃ e ∈ S, e.2.id = j) →
       marketsDiffHttp R S = none) ∧
    (∀ (c : List (Id × MarketChange)) (a : List (Id × Market))
       (r : List (Id × Option Market)),
       marketsDiff c a r = none ↔ c = [] ∧ a = [] ∧ r = []) := by
  constructor
  · intro R S h1 h2
    rw [marketsDiffHttp_eq]
    obtain ⟨hc, ha⟩ := diffHttpLoop_unchanged R S
      { changes := [], additions := [], oldIds := mapKeys R } h1
    have holds :
        (diffHttpLoop R S { changes := [], additions := [], oldIds := mapKeys R }).oldIds
          = [] := by
      rw [List.eq_nil_iff_forall_not_mem]
      intro j hj
      have hjR : j ∈ mapKeys R := diffHttpLoop_oldIds_subset R S _ j hj
      obtain ⟨e, heS, hej⟩ := h2 j hjR
      have hsome : ∃ mk, mapGet R e.2.id = some mk := by
        have he := h1 e heS
        cases hg : mapGet R e.2.id with
        | none =>
          rw [hg] at he
          simp at he
        | some mk => exact ⟨mk, rfl⟩
      exact diffHttpLoop_oldIds_covered R S _ j e heS hej hsome hj
    rw [marketsDiff_eq_none_iff]
    refine ⟨hc, ha, ?_⟩
    rw [holds]
    rfl
  · exact marketsDiff_eq_none_iff

theorem marketsDiffHttp_null_witness :
    (∀ e ∈ snapshotA, (mapGet registryA e.2.id).map trackedOf = some (marketUpdate e.2)) ∧
    (∀ j ∈ mapKeys registryA, ∃ e ∈ snapshotA, e.2.id = j) ∧
    marketsDiffHttp registryA snapshotA = none :=
  ⟨by decide, by decide, marketsDiffHttp_null.1 registryA snapshotA (by decide) (by decide)⟩

/-- C1: applying the diff computed by the HTTP diff function —
`updateMarkets(markets, marketsDiffHttp(markets, S))` — yields a registry
whose tracked-field projection (last price and isActive) agrees with the
snapshot at every id present in S.  The registry is a JS Map, so its keys
are unique; the snapshot must carry pairwise distinct ids for its
tracked-field projection by id to be well defined. -/
theorem marketsDiffHttp_roundtrip (R : Registry) (S : TickerResp)
    (hR : (mapKeys R).Nodup) (hS : (respIds S).Nodup)
    (name : Str) (t : TickerItem) (hmem : (name, t) ∈ S) :
    (mapGet (updateMarkets R (marketsDiffHttp R S)) t.id).map trackedOf
      = some (marketUpdate t) := by
  obtain ⟨hFc, hFa, hFo⟩ := diffHttpLoop_nodups R S
    { changes := [], additions := [], oldIds := mapKeys R } List.nodup_nil List.nodup_nil hR
  cases hget : mapGet R t.id with
  | some mk =>
    obtain ⟨hc, ha, ho⟩ := diffHttpLoop_hit R S hS name t hmem mk hget
    by_cases hcond :
        (diffHttpLoop R S { changes := [], additions := [], oldIds := mapKeys R }).changes = [] ∧
        (diffHttpLoop R S { changes := [], additions := [], oldIds := mapKeys R }).additions = [] ∧
        ((diffHttpLoop R S { changes := [], additions := [], oldIds := mapKeys R }).oldIds.map
          (fun i => (i, mapGet R i))) = []
    · rw [marketsDiffHttp_eq, (marketsDiff_eq_none_iff _ _ _).mpr hcond]
      show (mapGet R t.id).map trackedOf = some (marketUpdate t)
      have hmc : marketChange mk (marketUpdate t) = none := by
        rw [← hc, hcond.1]
        rfl
      obtain ⟨h1, h2⟩ := (marketChange_eq_none_iff mk (marketUpdate t)).mp hmc
      rw [hget]
      show some (trackedOf mk) = some (marketUpdate t)
      rw [trackedOf_eq_of_fields mk (marketUpdate t) h1 h2]
    · rw [marketsDiffHttp_eq, marketsDiff_eq_some_of_ne _ _ _ hcond]
      show (mapGet (applyRemovals
          (applyAdditions
            (applyChanges R
              (diffHttpLoop R S { changes := [], additions := [], oldIds := mapKeys R }).changes)
            (diffHttpLoop R S { changes := [], additions := [], oldIds := mapKeys R }).additions)
          ((diffHttpLoop R S { changes := [], additions := [], oldIds := mapKeys R }).oldIds.map
            (fun i => (i, mapGet R i)))) t.id).map trackedOf
        = some (marketUpdate t)
      have hnodup2 : (mapKeys (applyAdditions
          (applyChanges R
            (diffHttpLoop R S { changes := [], additions := [], oldIds := mapKeys R }).changes)
          (diffHttpLoop R S { changes := [], additions := [], oldIds := mapKeys R }).additions)).Nodup := by
        apply nodup_mapKeys_applyAdditions
        rw [mapKeys_applyChanges]
        exact hR
      rw [mapGet_applyRemovals _ _ _ hnodup2,
          if_neg (by rw [mapKeys_removals]; exact ho),
          mapGet_applyAdditions_none _ _ _ hFa ha]
      cases hmc : marketChange mk (marketUpdate t) with
      | some c =>
        rw [mapGet_applyChanges_some _ _ _ c hFc (by rw [hc, hmc]), hget]
        show some (trackedOf (applyChangeFields mk c)) = some (marketUpdate t)
        rw [trackedOf_applyChangeFields mk (marketUpdate t) c hmc]
      | none =>
        rw [mapGet_applyChanges_none _ _ _ hFc (by rw [hc, hmc]), hget]
        obtain ⟨h1, h2⟩ := (marketChange_eq_none_iff mk (marketUpdate t)).mp hmc
        show some (trackedOf mk) = some (marketUpdate t)
        rw [trackedOf_eq_of_fields mk (marketUpdate t) h1 h2]
  | none =>
    obtain ⟨hc, ha, ho⟩ := diffHttpLoop_miss R S hS name t hmem hget
    have hcond :
        ¬((diffHttpLoop R S { changes := [], additions := [], oldIds := mapKeys R }).changes = [] ∧
          (diffHttpLoop R S { changes := [], additions := [], oldIds := mapKeys R }).additions = [] ∧
          ((diffHttpLoop R S { changes := [], additions := [], oldIds := mapKeys R }).oldIds.map
            (fun i => (i, mapGet R i))) = []) := by
      intro hcon
      rw [hcon.2.1] at ha
      exact Option.noConfusion ha
    rw [marketsDiffHttp_eq, marketsDiff_eq_some_of_ne _ _ _ hcond]
    show (mapGet (applyRemovals
        (applyAdditions
          (applyChanges R
            (diffHttpLoop R S { changes := [], additions := [], oldIds := mapKeys R }).changes)
          (diffHttpLoop R S { changes := [], additions := [], oldIds := mapKeys R }).additions)
        ((diffHttpLoop R S { changes := [], additions := [], oldIds := mapKeys R }).oldIds.map
          (fun i => (i, mapGet R i)))) t.id).map trackedOf
      = some (marketUpdate t)
    have hnodup2 : (mapKeys (applyAdditions
        (applyChanges R
          (diffHttpLoop R S { changes := [], additions := [], oldIds := mapKeys R }).changes)
        (diffHttpLoop R S { changes := [], additions := [], oldIds := mapKeys R }).additions)).Nodup := by
      apply nodup_mapKeys_applyAdditions
      rw [mapKeys_applyChanges]
      exact hR
    rw [mapGet_applyRemovals _ _ _ hnodup2,
        if_neg (by rw [mapKeys_removals]; exact ho),
        mapGet_applyAdditions_some _ _ _ _ hFa ha]
    show some (trackedOf (createMarket t.id name t)) = some (marketUpdate t)
    rw [trackedOf_createMarket]

theorem marketsDiffHttp_roundtrip_witness :
    (mapKeys registryA).Nodup ∧ (respIds snapshotB).Nodup ∧
    (str "BTC_ETH", tickerItemB1) ∈ snapshotB ∧
    (mapGet (updateMarkets registryA (marketsDiffHttp registryA snapshotB))
        tickerItemB1.id).map trackedOf
      = some (marketUpdate tickerItemB1) :=
  ⟨by decide, by decide, by decide,
   marketsDiffHttp_roundtrip registryA snapshotB (by decide) (by decide)
     (str "BTC_ETH") tickerItemB1 (by decide)⟩

end Marketui
